import Mathlib

/-!
Shallow embedding of `src/analytics_project/data_preparation/prepare_customers_data.py`,
a pandas batch data-cleaning pipeline: duplicate removal, missing-value
imputation (mean for numeric columns, mode for categorical columns) and
z-score outlier removal.

Modelling conventions:
  - a cell is missing (`NaN`), a rational number (pandas numeric dtypes,
    modelled exactly over `ℚ`), or a string (object dtype);
  - a table is an ordered list of column names plus an ordered list of rows,
    each row a list of cells aligned with the column names by position;
  - a column has numeric dtype iff every non-missing cell in it is a number
    (pandas CSV type inference), and object dtype otherwise;
  - numpy NaN semantics are modelled explicitly: any comparison with a NaN
    z-score is false, and a zero standard deviation makes every z-score of
    that column NaN (0/0).
-/

namespace Prepare

/-- A cell of the table: missing (NaN), numeric, or string. -/
inductive Cell where
  | missing : Cell
  | num : ℚ → Cell
  | str : String → Cell
deriving DecidableEq, Repr

def Cell.isMissing : Cell → Bool
  | .missing => true
  | _ => false

def Cell.isStr : Cell → Bool
  | .str _ => true
  | _ => false

/-- An in-memory table: ordered column names and ordered rows of cells. -/
structure Table where
  cols : List String
  rows : List (List Cell)
deriving DecidableEq, Repr

/-- Well-formedness from the data model: every row has one cell per column. -/
def WF (t : Table) : Prop := ∀ r ∈ t.rows, r.length = t.cols.length

instance (t : Table) : Decidable (WF t) := by
  unfold WF; infer_instance

/-- The cells of column `j`, in row order (missing when out of range). -/
def colCells (t : Table) (j : ℕ) : List Cell :=
  t.rows.map (fun r => r.getD j Cell.missing)

/-- The cell at row `i`, column `j` (missing when out of range). -/
def cellAt (t : Table) (i j : ℕ) : Cell :=
  (t.rows.getD i []).getD j Cell.missing

/-! ## remove_duplicates

`df.drop_duplicates()`: a row is kept iff no earlier row has all column
values equal; survivors keep their original relative order. -/

/-- Drop every row already seen (first occurrences survive), as
`DataFrame.drop_duplicates` does with its default `keep="first"`. -/
def dedupKeepFirst (seen : List (List Cell)) : List (List Cell) → List (List Cell)
  | [] => []
  | r :: rs =>
      if r ∈ seen then dedupKeepFirst seen rs
      else r :: dedupKeepFirst (r :: seen) rs

def remove_duplicates (t : Table) : Table :=
  { cols := t.cols, rows := dedupKeepFirst [] t.rows }

/-- The count the function logs: original row count minus resulting row count. -/
def removedDuplicateCount (t : Table) : ℕ :=
  t.rows.length - (remove_duplicates t).rows.length

/-- Index of the first occurrence of a row value (length when absent). -/
def firstIdx (x : List Cell) : List (List Cell) → ℕ
  | [] => 0
  | r :: rs => if r = x then 0 else firstIdx x rs + 1

/-! ## handle_missing_values

Numeric columns (`select_dtypes(include=["number"])`) are filled with the
column mean over non-missing values; object columns
(`select_dtypes(include=["object"])`) are filled with `Series.mode()[0]`,
the least value among those of maximal frequency (pandas returns the modes
in ascending sorted order). An entirely missing column has numeric dtype
and a NaN mean, and `fillna(NaN)` leaves it unchanged. -/

/-- Numeric dtype: every non-missing cell is a number (pandas CSV inference;
an all-missing column is float64, hence numeric). -/
def isNumericCol (cells : List Cell) : Bool :=
  cells.all (fun c => !c.isStr)

/-- The numeric values of a column, in row order. -/
def ratsOf (cells : List Cell) : List ℚ :=
  cells.filterMap (fun c => match c with | .num q => some q | _ => none)

/-- The non-missing cells of a column, in row order. -/
def presentCells (cells : List Cell) : List Cell :=
  cells.filter (fun c => !c.isMissing)

/-- Lexicographic comparison of character lists by Unicode scalar value,
the order Python uses to compare strings. -/
def charListLt : List Char → List Char → Bool
  | [], [] => false
  | [], _ :: _ => true
  | _ :: _, [] => false
  | a :: as, b :: bs =>
      if a < b then true
      else if b < a then false
      else charListLt as bs

/-- Lexicographic string comparison by code point. -/
def strLt (s u : String) : Bool := charListLt s.data u.data

/-- Ascending order on cells, as numpy sorts the values of a column:
numbers by value, strings lexicographically (missing sorts first; the
cross-kind cases cannot arise inside one pandas-sortable column). -/
def cellLt : Cell → Cell → Bool
  | .missing, .missing => false
  | .missing, _ => true
  | .num _, .missing => false
  | .num p, .num q => decide (p < q)
  | .num _, .str _ => true
  | .str s, .str u => strLt s u
  | .str _, _ => false

/-- The least element of a nonempty candidate list under `cellLt`. -/
def leastCell (c : Cell) (cs : List Cell) : Cell :=
  cs.foldl (fun a b => if cellLt b a then b else a) c

/-- The non-missing values of maximal frequency, in row order. -/
def modeCands (cells : List Cell) : List Cell :=
  (presentCells cells).filter
    (fun v => (presentCells cells).all
      (fun x => (presentCells cells).count x ≤ (presentCells cells).count v))

/-- `Series.mode()[0]`: among the non-missing values of maximal frequency,
the first in ascending sorted order; `none` when every cell is missing
(`mode()` is empty and indexing it raises). -/
def seriesMode (cells : List Cell) : Option Cell :=
  match modeCands cells with
  | [] => none
  | c :: cs => some (leastCell c cs)

/-- What the claim's own words prescribe for the mode: the most frequent
non-missing value, ties broken by the value occurring first in the
table's row order. -/
def specFirstMode (cells : List Cell) : Option Cell :=
  (presentCells cells).find?
    (fun v => (presentCells cells).all
      (fun x => (presentCells cells).count x ≤ (presentCells cells).count v))

/-- Population mean of a column's numeric values. -/
def colMean (vs : List ℚ) : ℚ := vs.sum / (vs.length : ℚ)

/-- Sum of squared deviations from the mean (n times the population variance). -/
def colSS (vs : List ℚ) : ℚ := (vs.map (fun x => (x - colMean vs) ^ 2)).sum

/-- The value `fillna` is called with on a column: the mean for numeric
dtype (no-op `NaN` mean when the column is all missing), the mode for
object dtype. -/
def colFill (cells : List Cell) : Option Cell :=
  if isNumericCol cells then
    if ratsOf cells = [] then none
    else some (.num (colMean (ratsOf cells)))
  else seriesMode cells

/-- `fillna`: replace a missing cell by the fill value, keep the rest. -/
def fillCell (f : Option Cell) (c : Cell) : Cell :=
  match c, f with
  | .missing, some v => v
  | _, _ => c

/-- Apply the per-column fill values to one row, position by position. -/
def fillRow : List (Option Cell) → List Cell → List Cell
  | _, [] => []
  | [], c :: cs => c :: fillRow [] cs
  | f :: fs, c :: cs => fillCell f c :: fillRow fs cs

def handle_missing_values (t : Table) : Table :=
  { cols := t.cols,
    rows := t.rows.map
      (fillRow ((List.range t.cols.length).map (fun j => colFill (colCells t j)))) }

/-! ## remove_outliers

`df[(abs(stats.zscore(df[numeric_cols])) < z_threshold).all(axis=1)]`.
For each numeric column, `zscore` standardizes by the population mean and
standard deviation over all rows; a NaN value anywhere in the column makes
the column's mean NaN, a zero standard deviation makes every z of the
column 0/0: either way the z-scores are NaN and `abs(NaN) < t` is false,
so the row is dropped. With σ > 0, |v − μ|/σ < t iff 0 < t and
n·(v − μ)² < t²·Σ(x − μ)², which avoids the square root. -/

/-- Whether one cell of a numeric column passes `abs(z) < th`, given the
whole column (from which mean and standard deviation are computed). -/
def zPass (cells : List Cell) (th : ℚ) : Cell → Bool
  | .num v =>
      if cells.any (fun x => x.isMissing) then false
      else if colSS (ratsOf cells) = 0 then false
      else decide (0 < th ∧
        ((ratsOf cells).length : ℚ) * (v - colMean (ratsOf cells)) ^ 2
          < th ^ 2 * colSS (ratsOf cells))
  | _ => false

/-- The indices of the numeric-dtype columns. -/
def numericIdxs (t : Table) : List ℕ :=
  (List.range t.cols.length).filter (fun j => isNumericCol (colCells t j))

/-- A row survives iff `abs(z) < th` holds in every numeric column. -/
def keepRow (t : Table) (th : ℚ) (r : List Cell) : Bool :=
  (numericIdxs t).all (fun j => zPass (colCells t j) th (r.getD j Cell.missing))

def remove_outliers (t : Table) (th : ℚ := 3) : Table :=
  { cols := t.cols, rows := t.rows.filter (keepRow t th) }

/-! ## Pipeline driver

`main` strips whitespace from the column names, then runs
`remove_duplicates`, `handle_missing_values` and `remove_outliers` (at the
default threshold) in that order. -/

/-- `df.columns = df.columns.str.strip()`. -/
def stripCols (t : Table) : Table :=
  { cols := t.cols.map (fun s => s.trim), rows := t.rows }

def pipeline (t : Table) : Table :=
  remove_outliers (handle_missing_values (remove_duplicates (stripCols t))) 3

/-! ## Concrete tables used to instantiate the theorems -/

/-- One constant numeric column, as in spec example scenario 5. -/
def TconstCol : Table :=
  { cols := ["v"], rows := [[.num 5], [.num 5], [.num 5], [.num 5]] }

/-- A non-constant numeric column `a` next to a constant numeric column `b`. -/
def TconstPair : Table :=
  { cols := ["a", "b"],
    rows := [[.num 1, .num 5], [.num 2, .num 5], [.num 3, .num 5]] }

/-- A categorical column whose two values tie in frequency: "y" occurs
first in row order, "x" is lexicographically smaller. -/
def TmodeTie : Table :=
  { cols := ["c"], rows := [[.str "y"], [.str "x"], [.missing]] }

/-- Spec example scenario 3: mode "x" fills the missing cell. -/
def TmodeFill : Table :=
  { cols := ["c"], rows := [[.str "x"], [.str "x"], [.missing], [.str "y"]] }

/-- Spec example scenario 2: numeric column [1, 2, missing, 3]. -/
def TmeanFill : Table :=
  { cols := ["a"], rows := [[.num 1], [.num 2], [.missing], [.num 3]] }

/-- A numeric and a categorical column, each with one missing cell. -/
def Tmixed : Table :=
  { cols := ["a", "c"],
    rows := [[.num 1, .str "u"], [.missing, .missing], [.num 3, .str "u"]] }

/-- Spec example scenario 4's column: [10, 12, 11, 13, 1000]. -/
def Tscatter : Table :=
  { cols := ["a"],
    rows := [[.num 10], [.num 12], [.num 11], [.num 13], [.num 1000]] }

/-- A table with no numeric column. -/
def TnoNum : Table :=
  { cols := ["c"], rows := [[.str "p"], [.str "q"]] }

/-! # Theorems -/

/-! ## Lemmas about remove_duplicates -/

theorem dedupKeepFirst_sublist (l : List (List Cell)) :
    ∀ seen, (dedupKeepFirst seen l).Sublist l := by
  induction l with
  | nil => intro seen; simp [dedupKeepFirst]
  | cons r rs ih =>
      intro seen
      by_cases h : r ∈ seen
      · simp only [dedupKeepFirst, if_pos h]
        exact (ih seen).cons r
      · simp only [dedupKeepFirst, if_neg h]
        exact (ih (r :: seen)).cons₂ r

theorem mem_dedupKeepFirst (l : List (List Cell)) :
    ∀ seen x, x ∈ dedupKeepFirst seen l ↔ x ∈ l ∧ x ∉ seen := by
  induction l with
  | nil => intro seen x; simp [dedupKeepFirst]
  | cons r rs ih =>
      intro seen x
      by_cases h : r ∈ seen
      · simp only [dedupKeepFirst, if_pos h, ih, List.mem_cons]
        constructor
        · rintro ⟨hx, hns⟩; exact ⟨Or.inr hx, hns⟩
        · rintro ⟨hx | hx, hns⟩
          · subst hx; exact absurd h hns
          · exact ⟨hx, hns⟩
      · simp only [dedupKeepFirst, if_neg h, List.mem_cons, ih]
        by_cases hxr : x = r
        · subst hxr; simp [h]
        · simp [List.mem_cons, hxr]

theorem dedupKeepFirst_nodup (l : List (List Cell)) :
    ∀ seen, (dedupKeepFirst seen l).Nodup := by
  induction l with
  | nil => intro seen; simp [dedupKeepFirst]
  | cons r rs ih =>
      intro seen
      by_cases h : r ∈ seen
      · simpa only [dedupKeepFirst, if_pos h] using ih seen
      · simp only [dedupKeepFirst, if_neg h, List.nodup_cons]
        refine ⟨fun hc => ?_, ih (r :: seen)⟩
        exact ((mem_dedupKeepFirst rs (r :: seen) r).1 hc).2 (List.mem_cons_self r seen)

theorem firstIdx_cons_self (x : List Cell) (rs : List (List Cell)) :
    firstIdx x (x :: rs) = 0 := by
  simp [firstIdx]

theorem firstIdx_cons_ne (x r : List Cell) (rs : List (List Cell)) (h : r ≠ x) :
    firstIdx x (r :: rs) = firstIdx x rs + 1 := by
  simp [firstIdx, h]

theorem dedupKeepFirst_pairwise_firstIdx (l : List (List Cell)) :
    ∀ seen, (dedupKeepFirst seen l).Pairwise
      (fun a b => firstIdx a l < firstIdx b l) := by
  induction l with
  | nil => intro seen; simp [dedupKeepFirst]
  | cons r rs ih =>
      intro seen
      by_cases h : r ∈ seen
      · simp only [dedupKeepFirst, if_pos h]
        refine (ih seen).imp_of_mem ?_
        intro a b ha hb hab
        have hna : r ≠ a := fun he =>
          ((mem_dedupKeepFirst rs seen a).1 ha).2 (by rw [← he]; exact h)
        have hnb : r ≠ b := fun he =>
          ((mem_dedupKeepFirst rs seen b).1 hb).2 (by rw [← he]; exact h)
        rw [firstIdx_cons_ne a r rs hna, firstIdx_cons_ne b r rs hnb]
        exact Nat.succ_lt_succ hab
      · simp only [dedupKeepFirst, if_neg h, List.pairwise_cons]
        constructor
        · intro b hb
          have hnb : r ≠ b := fun he =>
            ((mem_dedupKeepFirst rs (r :: seen) b).1 hb).2
              (by rw [← he]; exact List.mem_cons_self r seen)
          rw [firstIdx_cons_self, firstIdx_cons_ne b r rs hnb]
          exact Nat.succ_pos _
        · refine (ih (r :: seen)).imp_of_mem ?_
          intro a b ha hb hab
          have hna : r ≠ a := fun he =>
            ((mem_dedupKeepFirst rs (r :: seen) a).1 ha).2
              (by rw [← he]; exact List.mem_cons_self r seen)
          have hnb : r ≠ b := fun he =>
            ((mem_dedupKeepFirst rs (r :: seen) b).1 hb).2
              (by rw [← he]; exact List.mem_cons_self r seen)
          rw [firstIdx_cons_ne a r rs hna, firstIdx_cons_ne b r rs hnb]
          exact Nat.succ_lt_succ hab

/-! ## Order lemmas for `cellLt` -/

theorem charListLt_irrefl (as : List Char) : charListLt as as = false := by
  induction as with
  | nil => rfl
  | cons a as ih => simp [charListLt, lt_irrefl, ih]

theorem charListLt_trans (as : List Char) : ∀ bs cs,
    charListLt as bs = true → charListLt bs cs = true → charListLt as cs = true := by
  induction as with
  | nil =>
      intro bs cs hab hbc
      cases bs with
      | nil => simp [charListLt] at hab
      | cons b bs2 =>
          cases cs with
          | nil => simp [charListLt] at hbc
          | cons c cs2 => simp [charListLt]
  | cons a as ih =>
      intro bs cs hab hbc
      cases bs with
      | nil => simp [charListLt] at hab
      | cons b bs2 =>
          cases cs with
          | nil => simp [charListLt] at hbc
          | cons c cs2 =>
              simp only [charListLt] at hab hbc ⊢
              by_cases h1 : a < b
              · by_cases h2 : b < c
                · rw [if_pos (lt_trans h1 h2)]
                · rw [if_neg h2] at hbc
                  by_cases h3 : c < b
                  · rw [if_pos h3] at hbc; exact absurd hbc Bool.false_ne_true
                  · rw [if_neg h3] at hbc
                    have hbce : b = c := le_antisymm (le_of_not_lt h3) (le_of_not_lt h2)
                    rw [if_pos (hbce ▸ h1)]
              · rw [if_neg h1] at hab
                by_cases h4 : b < a
                · rw [if_pos h4] at hab; exact absurd hab Bool.false_ne_true
                · rw [if_neg h4] at hab
                  have habe : a = b := le_antisymm (le_of_not_lt h4) (le_of_not_lt h1)
                  by_cases h2 : b < c
                  · rw [if_pos (habe ▸ h2)]
                  · rw [if_neg h2] at hbc
                    by_cases h3 : c < b
                    · rw [if_pos h3] at hbc; exact absurd hbc Bool.false_ne_true
                    · rw [if_neg h3] at hbc
                      rw [if_neg (habe ▸ h2), if_neg (fun hca => h3 (habe ▸ hca))]
                      exact ih bs2 cs2 hab hbc

theorem charListLt_connex (as : List Char) : ∀ bs, as ≠ bs →
    charListLt as bs = false → charListLt bs as = true := by
  induction as with
  | nil =>
      intro bs hne hab
      cases bs with
      | nil => exact absurd rfl hne
      | cons b bs2 => simp [charListLt] at hab
  | cons a as ih =>
      intro bs hne hab
      cases bs with
      | nil => rfl
      | cons b bs2 =>
          simp only [charListLt] at hab ⊢
          by_cases h1 : a < b
          · rw [if_pos h1] at hab; exact Bool.noConfusion hab
          · rw [if_neg h1] at hab
            by_cases h2 : b < a
            · rw [if_pos h2]
            · rw [if_neg h2] at hab
              have habe : a = b := le_antisymm (le_of_not_lt h2) (le_of_not_lt h1)
              subst habe
              rw [if_neg h2, if_neg h1]
              apply ih bs2 _ hab
              intro he
              exact hne (by rw [he])

theorem strLt_irrefl (s : String) : strLt s s = false :=
  charListLt_irrefl s.data

theorem strLt_trans {s u w : String} (h1 : strLt s u = true) (h2 : strLt u w = true) :
    strLt s w = true :=
  charListLt_trans s.data u.data w.data h1 h2

theorem strLt_connex {s u : String} (hne : s ≠ u) (h : strLt s u = false) :
    strLt u s = true := by
  apply charListLt_connex s.data u.data _ h
  intro hd
  apply hne
  cases s
  cases u
  simp only at hd
  rw [hd]

theorem cellLt_trans {a b c : Cell} (hab : cellLt a b = true) (hbc : cellLt b c = true) :
    cellLt a c = true := by
  cases a <;> cases b <;> cases c <;>
    simp_all only [cellLt, decide_eq_true_eq, Bool.false_eq_true]
  · exact lt_trans hab hbc
  · exact strLt_trans hab hbc

theorem cellLt_irrefl (a : Cell) : cellLt a a = false := by
  cases a with
  | missing => rfl
  | num q => simp [cellLt]
  | str s => exact strLt_irrefl s

theorem cellLt_connex {a b : Cell} (hne : a ≠ b) (hab : cellLt a b = false) :
    cellLt b a = true := by
  cases a <;> cases b <;>
    simp_all only [cellLt, decide_eq_true_eq, decide_eq_false_iff_not, not_lt,
      ne_eq, Cell.num.injEq, Cell.str.injEq, not_false_eq_true, Bool.true_eq_false,
      not_true_eq_false]
  · exact lt_of_le_of_ne hab (fun h => hne h.symm)
  · exact strLt_connex hne hab

/-! ## Lemmas about the mode -/

theorem leastCell_cons (c b : Cell) (bs : List Cell) :
    leastCell c (b :: bs) = leastCell (if cellLt b c then b else c) bs := rfl

theorem leastCell_mem (cs : List Cell) : ∀ c, leastCell c cs ∈ c :: cs := by
  induction cs with
  | nil => intro c; simp [leastCell]
  | cons b bs ih =>
      intro c
      rw [leastCell_cons]
      by_cases hbc : cellLt b c = true
      · rw [if_pos hbc]
        rcases List.mem_cons.1 (ih b) with h | h
        · rw [h]; simp
        · simp [List.mem_cons, h]
      · rw [if_neg hbc]
        rcases List.mem_cons.1 (ih c) with h | h
        · rw [h]; simp
        · simp [List.mem_cons, h]

theorem leastCell_least (cs : List Cell) :
    ∀ c x, x ∈ c :: cs → cellLt x (leastCell c cs) = false := by
  induction cs with
  | nil =>
      intro c x hx
      rcases List.mem_cons.1 hx with h | h
      · rw [h]; exact cellLt_irrefl c
      · exact absurd h (List.not_mem_nil x)
  | cons b bs ih =>
      intro c x hx
      rw [leastCell_cons]
      by_cases hbc : cellLt b c = true
      · rw [if_pos hbc]
        have hself : cellLt b (leastCell b bs) = false :=
          ih b b (List.mem_cons_self b bs)
        rcases List.mem_cons.1 hx with h | hx2
        · rw [h]
          by_contra hcon
          rw [Bool.not_eq_false] at hcon
          have htr := cellLt_trans hbc hcon
          rw [hself] at htr
          exact Bool.false_ne_true htr
        · rcases List.mem_cons.1 hx2 with h | hx3
          · rw [h]; exact hself
          · exact ih b x (List.mem_cons_of_mem b hx3)
      · rw [if_neg hbc]
        have hself : cellLt c (leastCell c bs) = false :=
          ih c c (List.mem_cons_self c bs)
        rcases List.mem_cons.1 hx with h | hx2
        · rw [h]; exact hself
        · rcases List.mem_cons.1 hx2 with h | hx3
          · rw [h]
            by_cases hbeq : b = c
            · rw [hbeq]; exact hself
            · have hcb : cellLt c b = true :=
                cellLt_connex hbeq (Bool.not_eq_true _ ▸ hbc)
              by_contra hcon
              rw [Bool.not_eq_false] at hcon
              have htr := cellLt_trans hcb hcon
              rw [hself] at htr
              exact Bool.false_ne_true htr
          · exact ih c x (List.mem_cons_of_mem c hx3)

/-- A nonempty list has an element of maximal score. -/
theorem exists_max_score (g : Cell → ℕ) (l : List Cell) (h : l ≠ []) :
    ∃ v ∈ l, ∀ x ∈ l, g x ≤ g v := by
  induction l with
  | nil => exact absurd rfl h
  | cons a l ih =>
      rcases eq_or_ne l [] with rfl | hl
      · exact ⟨a, List.mem_cons_self a [], by simp⟩
      · obtain ⟨v, hv, hmax⟩ := ih hl
        by_cases hav : g a ≤ g v
        · refine ⟨v, List.mem_cons_of_mem a hv, ?_⟩
          intro x hx
          rcases List.mem_cons.1 hx with rfl | hx
          · exact hav
          · exact hmax x hx
        · refine ⟨a, List.mem_cons_self a l, ?_⟩
          intro x hx
          rcases List.mem_cons.1 hx with rfl | hx
          · exact le_refl _
          · exact le_trans (hmax x hx) (le_of_not_le hav)

theorem seriesMode_spec (cells : List Cell) (h : presentCells cells ≠ []) :
    ∃ m, seriesMode cells = some m
      ∧ m ∈ presentCells cells
      ∧ (∀ x ∈ presentCells cells,
          (presentCells cells).count x ≤ (presentCells cells).count m)
      ∧ (∀ x ∈ presentCells cells,
          (presentCells cells).count x = (presentCells cells).count m →
            cellLt x m = false) := by
  have hcne : modeCands cells ≠ [] := by
    obtain ⟨v, hv, hmax⟩ :=
      exists_max_score (fun x => (presentCells cells).count x) (presentCells cells) h
    have hvc : v ∈ modeCands cells := by
      rw [modeCands, List.mem_filter]
      exact ⟨hv, by simpa [List.all_eq_true] using hmax⟩
    intro hc
    rw [hc] at hvc
    exact List.not_mem_nil v hvc
  obtain ⟨c, cs, hcc⟩ := List.exists_cons_of_ne_nil hcne
  have hmode : seriesMode cells = some (leastCell c cs) := by
    unfold seriesMode
    rw [hcc]
  have hsub : ∀ y ∈ modeCands cells, y ∈ presentCells cells ∧
      ∀ x ∈ presentCells cells,
        (presentCells cells).count x ≤ (presentCells cells).count y := by
    intro y hy
    rw [modeCands, List.mem_filter] at hy
    exact ⟨hy.1, by simpa [List.all_eq_true] using hy.2⟩
  have hmem : leastCell c cs ∈ modeCands cells := hcc ▸ leastCell_mem cs c
  obtain ⟨hmv, hmmax⟩ := hsub _ hmem
  refine ⟨leastCell c cs, hmode, hmv, hmmax, ?_⟩
  intro x hx hcnt
  have hxc : x ∈ modeCands cells := by
    rw [modeCands, List.mem_filter]
    refine ⟨hx, ?_⟩
    simp only [List.all_eq_true, decide_eq_true_eq]
    intro y hy
    exact hcnt ▸ hmmax y hy
  exact leastCell_least cs c x (hcc ▸ hxc)

/-! ## Lemmas about filling -/

theorem fillCell_none (c : Cell) : fillCell none c = c := by
  cases c <;> rfl

theorem fillCell_some (v c : Cell) : fillCell (some v) c = if c.isMissing then v else c := by
  cases c <;> rfl

theorem fillCell_missing (v : Cell) : fillCell (some v) Cell.missing = v := rfl

theorem fillCell_of_ne (f : Option Cell) (c : Cell) (h : c ≠ Cell.missing) :
    fillCell f c = c := by
  cases c with
  | missing => exact absurd rfl h
  | num q => cases f <;> rfl
  | str s => cases f <;> rfl

theorem fillRow_length (fs : List (Option Cell)) (r : List Cell) :
    (fillRow fs r).length = r.length := by
  induction r generalizing fs with
  | nil => cases fs <;> rfl
  | cons c cs ih => cases fs <;> simp [fillRow, ih]

theorem fillRow_getD (fs : List (Option Cell)) (r : List Cell) (j : ℕ)
    (hj : j < r.length) :
    (fillRow fs r).getD j Cell.missing =
      fillCell (fs.getD j none) (r.getD j Cell.missing) := by
  induction r generalizing fs j with
  | nil => simp at hj
  | cons c cs ih =>
      cases fs with
      | nil =>
          cases j with
          | zero => simp [fillRow, fillCell_none]
          | succ j =>
              have hj2 : j < cs.length := by simpa using hj
              simpa [fillRow] using ih [] j hj2
      | cons f fs =>
          cases j with
          | zero => simp [fillRow]
          | succ j =>
              have hj2 : j < cs.length := by simpa using hj
              simpa [fillRow] using ih fs j hj2

theorem rangeMap_getD {α : Type} (n j : ℕ) (f : ℕ → α) (d : α) (hj : j < n) :
    ((List.range n).map f).getD j d = f j := by
  rw [List.getD_eq_getElem?_getD, List.getElem?_map, List.getElem?_range hj]
  rfl

/-- A column of the imputed table is the original column with the column's
fill value substituted for its missing cells. -/
theorem colCells_handle (t : Table) (j : ℕ) (hwf : WF t) (hj : j < t.cols.length) :
    colCells (handle_missing_values t) j =
      (colCells t j).map (fillCell (colFill (colCells t j))) := by
  simp only [colCells, handle_missing_values, List.map_map]
  apply List.map_congr_left
  intro r hr
  simp only [Function.comp_apply]
  have hjr : j < r.length := (hwf r hr) ▸ hj
  rw [fillRow_getD _ r j hjr, rangeMap_getD t.cols.length j _ none hj]

/-- A column with a non-missing value always yields a non-missing fill. -/
theorem colFill_isSome (cells : List Cell) (h : ∃ c ∈ cells, c ≠ Cell.missing) :
    ∃ v, colFill cells = some v ∧ v ≠ Cell.missing := by
  unfold colFill
  by_cases hnum : isNumericCol cells = true
  · rw [if_pos hnum]
    have hro : ratsOf cells ≠ [] := by
      obtain ⟨c, hc, hcm⟩ := h
      cases c with
      | missing => exact absurd rfl hcm
      | str s =>
          rw [isNumericCol, List.all_eq_true] at hnum
          have hs := hnum _ hc
          simp [Cell.isStr] at hs
      | num q =>
          intro hrn
          have hq : q ∈ ratsOf cells := by
            rw [ratsOf, List.mem_filterMap]
            exact ⟨Cell.num q, hc, rfl⟩
          rw [hrn] at hq
          exact List.not_mem_nil q hq
    rw [if_neg hro]
    exact ⟨_, rfl, by simp⟩
  · rw [if_neg hnum]
    have hp : presentCells cells ≠ [] := by
      obtain ⟨c, hc, hcm⟩ := h
      intro hpn
      have hcp : c ∈ presentCells cells := by
        rw [presentCells, List.mem_filter]
        refine ⟨hc, ?_⟩
        cases c with
        | missing => exact absurd rfl hcm
        | num q => rfl
        | str s => rfl
      rw [hpn] at hcp
      exact List.not_mem_nil c hcp
    obtain ⟨m, hm, hmv, hmax, htie⟩ := seriesMode_spec cells hp
    refine ⟨m, hm, ?_⟩
    rw [presentCells, List.mem_filter] at hmv
    intro heq
    rw [heq] at hmv
    simp [Cell.isMissing] at hmv

/-- Cells that are present are never changed by the imputation. -/
theorem cellAt_handle_of_ne (t : Table) (i j : ℕ) (h : cellAt t i j ≠ Cell.missing) :
    cellAt (handle_missing_values t) i j = cellAt t i j := by
  by_cases hi : i < t.rows.length
  · have hgi : t.rows.getD i [] = t.rows[i] := by
      rw [List.getD_eq_getElem?_getD, List.getElem?_eq_getElem hi]
      rfl
    have hj : j < t.rows[i].length := by
      by_contra hj
      rw [cellAt, hgi, List.getD_eq_default _ _ (le_of_not_lt hj)] at h
      exact h rfl
    have hmap : ∀ g : List Cell → List Cell, (t.rows.map g).getD i [] = g t.rows[i] := by
      intro g
      rw [List.getD_eq_getElem?_getD, List.getElem?_map, List.getElem?_eq_getElem hi]
      rfl
    rw [cellAt, cellAt, hgi,
      show (handle_missing_values t).rows = t.rows.map
        (fillRow ((List.range t.cols.length).map (fun k => colFill (colCells t k))))
        from rfl, hmap]
    rw [fillRow_getD _ _ _ hj]
    apply fillCell_of_ne
    rw [cellAt, hgi] at h
    exact h
  · exfalso
    apply h
    rw [cellAt, List.getD_eq_default _ _ (le_of_not_lt hi)]
    simp [List.getD]

/-! ## Lemmas about outlier removal -/

theorem colSS_nonneg (vs : List ℚ) : 0 ≤ colSS vs := by
  apply List.sum_nonneg
  intro x hx
  obtain ⟨y, _, rfl⟩ := List.mem_map.1 hx
  exact sq_nonneg _

theorem zPass_mono {cells : List Cell} {t1 t2 : ℚ} (h12 : t1 ≤ t2) {c : Cell}
    (h : zPass cells t1 c = true) : zPass cells t2 c = true := by
  cases c with
  | missing => exact absurd h (by simp [zPass])
  | str s => exact absurd h (by simp [zPass])
  | num v =>
      simp only [zPass] at h ⊢
      by_cases hm : cells.any (fun x => x.isMissing) = true
      · rw [if_pos hm] at h; exact absurd h Bool.false_ne_true
      · rw [if_neg hm] at h ⊢
        by_cases hss : colSS (ratsOf cells) = 0
        · rw [if_pos hss] at h; exact absurd h Bool.false_ne_true
        · rw [if_neg hss] at h ⊢
          rw [decide_eq_true_eq] at h ⊢
          obtain ⟨h1, h2⟩ := h
          refine ⟨lt_of_lt_of_le h1 h12, lt_of_lt_of_le h2 ?_⟩
          apply mul_le_mul_of_nonneg_right _ (colSS_nonneg _)
          exact pow_le_pow_left₀ (le_of_lt h1) h12 2

theorem keepRow_mono {t : Table} {t1 t2 : ℚ} (h : t1 ≤ t2) {r : List Cell}
    (hk : keepRow t t1 r = true) : keepRow t t2 r = true := by
  rw [keepRow, List.all_eq_true] at hk ⊢
  intro j hj
  exact zPass_mono h (hk j hj)

theorem isMissing_false_of_ne (c : Cell) (h : c ≠ Cell.missing) : (!c.isMissing) = true := by
  cases c with
  | missing => exact absurd rfl h
  | num q => rfl
  | str s => rfl

/-! ## The claims -/

/-- Claim C1: the spec requires that a constant numeric column (population
standard deviation 0) never causes a row to be removed. The code instead
propagates the NaN z-scores of the 0/0 division, `abs(NaN) < t` is false,
and `remove_outliers` drops every row of a table whose only numeric column
is the constant column [5, 5, 5, 5] at the default threshold 3. -/
theorem sigma_zero_drops_all_rows :
    remove_outliers TconstCol 3 = { cols := ["v"], rows := [] } :=
  of_decide_eq_true (by with_unfolding_all rfl)

/-- Claim C4: on a table with no missing numeric values, the claim's keep
rule (|z| < t in every numeric column, a constant column flagging nothing)
would keep every row of `TconstPair`: its non-constant column `a` passes
the z-test for every row, as the first conjunct shows. The code instead
drops all rows because the constant column `b` yields NaN z-scores. -/
theorem constant_column_defeats_z_rule :
    TconstPair.rows.all
      (fun r => zPass (colCells TconstPair 0) 3 (r.getD 0 Cell.missing)) = true
  ∧ remove_outliers TconstPair 3 = { cols := ["a", "b"], rows := [] } :=
  of_decide_eq_true (by with_unfolding_all rfl)

/-- Claim C2: if every column has a non-missing value, no missing value
survives `handle_missing_values`: every cell of every row of the result is
non-missing. -/
theorem handle_missing_values_fills_every_cell (t : Table) (hwf : WF t)
    (h : ∀ j, j < t.cols.length → ∃ c ∈ colCells t j, c ≠ Cell.missing) :
    (handle_missing_values t).rows.all
      (fun r => r.all (fun c => !c.isMissing)) = true := by
  rw [List.all_eq_true]
  intro r' hr'
  rw [List.all_eq_true]
  intro c hc
  have hrows : (handle_missing_values t).rows
      = t.rows.map
          (fillRow ((List.range t.cols.length).map (fun k => colFill (colCells t k)))) := rfl
  rw [hrows] at hr'
  obtain ⟨r, hr, rfl⟩ := List.mem_map.1 hr'
  obtain ⟨j, hjlen, rfl⟩ := List.mem_iff_getElem.1 hc
  have hjr : j < r.length := by rwa [fillRow_length] at hjlen
  have hj : j < t.cols.length := (hwf r hr) ▸ hjr
  have hgd : (fillRow ((List.range t.cols.length).map
        (fun k => colFill (colCells t k))) r)[j]
      = (fillRow ((List.range t.cols.length).map
        (fun k => colFill (colCells t k))) r).getD j Cell.missing := by
    rw [List.getD_eq_getElem?_getD, List.getElem?_eq_getElem hjlen]
    rfl
  rw [hgd, fillRow_getD _ r j hjr, rangeMap_getD t.cols.length j _ none hj]
  by_cases hm : r.getD j Cell.missing = Cell.missing
  · rw [hm]
    obtain ⟨v, hv, hvm⟩ := colFill_isSome (colCells t j) (h j hj)
    rw [hv, fillCell_missing]
    exact isMissing_false_of_ne v hvm
  · rw [fillCell_of_ne _ _ hm]
    exact isMissing_false_of_ne _ hm

/-- Claim C3 counterexample: in the column ["y", "x", missing] both values
occur once; the value occurring first in row order is "y", yet the missing
cell is filled with "x" (pandas sorts the modes and takes the smallest), so
the claim's tie-breaking rule does not describe the code. -/
theorem mode_tie_breaks_by_sort_not_row_order :
    specFirstMode (colCells TmodeTie 0) = some (Cell.str "y")
  ∧ (handle_missing_values TmodeTie).rows
      = [[Cell.str "y"], [Cell.str "x"], [Cell.str "x"]]
  ∧ (handle_missing_values TmodeTie).rows
      ≠ TmodeTie.rows.map (fun r => r.map
          (fun c => if c.isMissing then Cell.str "y" else c)) :=
  of_decide_eq_true (by with_unfolding_all rfl)

/-- Claim C3 as amended: every missing cell of a categorical column is
replaced by the column's mode, the most frequent non-missing value; when
several values share the maximal frequency the one chosen is the least in
ascending sorted order (lexicographic for strings), not the first in the
table's row order. -/
theorem imputes_categorical_mode (t : Table) (j : ℕ) (hwf : WF t)
    (hj : j < t.cols.length) (hcat : isNumericCol (colCells t j) = false) :
    ∃ m, seriesMode (colCells t j) = some m
      ∧ colCells (handle_missing_values t) j =
          (colCells t j).map (fun c => if c.isMissing then m else c)
      ∧ m ∈ presentCells (colCells t j)
      ∧ (∀ x ∈ presentCells (colCells t j),
          (presentCells (colCells t j)).count x
            ≤ (presentCells (colCells t j)).count m)
      ∧ (∀ x ∈ presentCells (colCells t j),
          (presentCells (colCells t j)).count x
              = (presentCells (colCells t j)).count m →
            cellLt x m = false) := by
  have hp : presentCells (colCells t j) ≠ [] := by
    have hno : ¬ (∀ c ∈ colCells t j, (!c.isStr) = true) := by
      intro hall
      have hcn : isNumericCol (colCells t j) = true := by
        rw [isNumericCol, List.all_eq_true]
        exact hall
      rw [hcat] at hcn
      exact Bool.false_ne_true hcn
    push_neg at hno
    obtain ⟨c, hc, hcs⟩ := hno
    have hstr : c.isStr = true := by
      by_contra hbf
      apply hcs
      rw [Bool.not_eq_true] at hbf
      rw [hbf]
      rfl
    intro hpn
    have hcp : c ∈ presentCells (colCells t j) := by
      rw [presentCells, List.mem_filter]
      refine ⟨hc, ?_⟩
      cases c with
      | str s => rfl
      | missing => simp [Cell.isStr] at hstr
      | num q => rfl
    rw [hpn] at hcp
    exact List.not_mem_nil c hcp
  obtain ⟨m, hm, hmv, hmax, htie⟩ := seriesMode_spec _ hp
  refine ⟨m, hm, ?_, hmv, hmax, htie⟩
  rw [colCells_handle t j hwf hj]
  apply List.map_congr_left
  intro c hc
  have hcf : colFill (colCells t j) = some m := by
    rw [colFill, if_neg (fun hh => Bool.false_ne_true (hcat ▸ hh))]
    exact hm
  rw [hcf, fillCell_some]

/-- Claim C3 witness: spec example scenario 3, column ["x", "x", missing, "y"]. -/
theorem imputes_categorical_mode_witness :
    ∃ m, seriesMode (colCells TmodeFill 0) = some m
      ∧ colCells (handle_missing_values TmodeFill) 0 =
          (colCells TmodeFill 0).map (fun c => if c.isMissing then m else c)
      ∧ m ∈ presentCells (colCells TmodeFill 0)
      ∧ (∀ x ∈ presentCells (colCells TmodeFill 0),
          (presentCells (colCells TmodeFill 0)).count x
            ≤ (presentCells (colCells TmodeFill 0)).count m)
      ∧ (∀ x ∈ presentCells (colCells TmodeFill 0),
          (presentCells (colCells TmodeFill 0)).count x
              = (presentCells (colCells TmodeFill 0)).count m →
            cellLt x m = false) :=
  imputes_categorical_mode TmodeFill 0 (by decide) (by decide) (by decide)

/-- Claim C2 witness: a table with a numeric and a categorical column, one
missing cell each. -/
theorem handle_missing_values_fills_every_cell_witness :
    (handle_missing_values Tmixed).rows.all
      (fun r => r.all (fun c => !c.isMissing)) = true :=
  handle_missing_values_fills_every_cell Tmixed (by decide) (by decide)

/-- Claim C6: every missing cell of a numeric column with a non-missing
value is replaced by the arithmetic mean of the column's non-missing
values, stored exactly (unrounded). -/
theorem imputes_numeric_mean (t : Table) (j : ℕ) (hwf : WF t)
    (hj : j < t.cols.length) (hnum : isNumericCol (colCells t j) = true)
    (hne : ratsOf (colCells t j) ≠ []) :
    colCells (handle_missing_values t) j =
      (colCells t j).map (fun c => if c.isMissing
        then Cell.num (colMean (ratsOf (colCells t j))) else c) := by
  rw [colCells_handle t j hwf hj]
  apply List.map_congr_left
  intro c hc
  have hcf : colFill (colCells t j)
      = some (Cell.num (colMean (ratsOf (colCells t j)))) := by
    rw [colFill, if_pos hnum, if_neg hne]
  rw [hcf, fillCell_some]

/-- Claim C6 witness: spec example scenario 2, column [1, 2, missing, 3]. -/
theorem imputes_numeric_mean_witness :
    colCells (handle_missing_values TmeanFill) 0 =
      (colCells TmeanFill 0).map (fun c => if c.isMissing
        then Cell.num (colMean (ratsOf (colCells TmeanFill 0))) else c) :=
  imputes_numeric_mean TmeanFill 0 (by decide) (by decide) (by decide) (by decide)

/-- Claim C5: `remove_duplicates` keeps, for each distinct full-row
valuation, exactly one occurrence (`Nodup` plus the membership
equivalence), as a subsequence of the input (original relative order), the
survivors ordered by first occurrence; the removed count is the original
row count minus the resulting row count, and an empty table yields an
empty table. -/
theorem remove_duplicates_spec (t : Table) :
    (remove_duplicates t).cols = t.cols
  ∧ (remove_duplicates t).rows.Sublist t.rows
  ∧ (remove_duplicates t).rows.Nodup
  ∧ (∀ r, r ∈ (remove_duplicates t).rows ↔ r ∈ t.rows)
  ∧ (remove_duplicates t).rows.Pairwise
      (fun a b => firstIdx a t.rows < firstIdx b t.rows)
  ∧ removedDuplicateCount t = t.rows.length - (remove_duplicates t).rows.length
  ∧ remove_duplicates { cols := t.cols, rows := [] }
      = { cols := t.cols, rows := [] } := by
  refine ⟨rfl, dedupKeepFirst_sublist t.rows [], dedupKeepFirst_nodup t.rows [],
    ?_, dedupKeepFirst_pairwise_firstIdx t.rows [], rfl, rfl⟩
  intro r
  rw [show (remove_duplicates t).rows = dedupKeepFirst [] t.rows from rfl,
    mem_dedupKeepFirst]
  simp

/-- Claim C7: a larger threshold never yields fewer surviving rows. -/
theorem remove_outliers_threshold_mono (t : Table) (t1 t2 : ℚ) (h : t1 ≤ t2) :
    (remove_outliers t t1).rows.length ≤ (remove_outliers t t2).rows.length :=
  (List.monotone_filter_right t.rows (fun r hr => keepRow_mono h hr)).length_le

/-- Claim C7 witness: thresholds 1 ≤ 3 on the column [10, 12, 11, 13, 1000]. -/
theorem remove_outliers_threshold_mono_witness :
    (remove_outliers Tscatter 1).rows.length
      ≤ (remove_outliers Tscatter 3).rows.length :=
  remove_outliers_threshold_mono Tscatter 1 3 (by norm_num)

/-- Claim C8: the full pipeline returns the input's column names with
surrounding whitespace trimmed, and no single stage adds, removes or
renames a column. -/
theorem pipeline_preserves_trimmed_columns (t : Table) (th : ℚ) :
    (pipeline t).cols = t.cols.map (fun s => s.trim)
  ∧ (stripCols t).cols = t.cols.map (fun s => s.trim)
  ∧ (remove_duplicates t).cols = t.cols
  ∧ (handle_missing_values t).cols = t.cols
  ∧ (remove_outliers t th).cols = t.cols :=
  ⟨rfl, rfl, rfl, rfl, rfl⟩

/-- Claim C9: `remove_duplicates` and `remove_outliers` return sublists of
the original rows (whole rows removed, surviving rows untouched, order
preserved), and `handle_missing_values` keeps the row count and changes no
cell that was already non-missing. -/
theorem stages_frame_effect (t : Table) (th : ℚ) :
    (remove_duplicates t).rows.Sublist t.rows
  ∧ (remove_outliers t th).rows.Sublist t.rows
  ∧ (handle_missing_values t).rows.length = t.rows.length
  ∧ (∀ i j, cellAt t i j ≠ Cell.missing →
      cellAt (handle_missing_values t) i j = cellAt t i j) := by
  refine ⟨dedupKeepFirst_sublist t.rows [], List.filter_sublist _, ?_, ?_⟩
  · show (t.rows.map _).length = t.rows.length
    rw [List.length_map]
  · exact fun i j h => cellAt_handle_of_ne t i j h

/-- Claim C10: a non-empty table with no numeric column is returned whole,
for every threshold: the per-row test quantifies over no column. -/
theorem remove_outliers_no_numeric_cols (t : Table) (th : ℚ)
    (h : numericIdxs t = []) (hne : t.rows ≠ []) :
    remove_outliers t th = t := by
  have hk : ∀ r ∈ t.rows, keepRow t th r = true := by
    intro r _
    rw [keepRow, h]
    rfl
  show ({ cols := t.cols, rows := t.rows.filter (keepRow t th) } : Table) = t
  rw [List.filter_eq_self.mpr hk]

/-- Claim C10 witness: a two-row table of strings only, threshold 5. -/
theorem remove_outliers_no_numeric_cols_witness :
    remove_outliers TnoNum 5 = TnoNum :=
  remove_outliers_no_numeric_cols TnoNum 5 (by decide) (by decide)

end Prepare
